import Mathlib

/-
Verification of the async file sorter (`filesorter.py`).

The embedding is a shallow one:
* Python strings (file names, log texts) are `List Char`.
* Filesystem paths below the source root are `List (List Char)` (component lists).
* The filesystem is a single association list from keys (`FKey.src` for files
  under the source root, `FKey.dst ext name` for files in the destination
  extension folders) to byte contents (`List Nat`).
* The async walk (`read_folder` + `asyncio.gather`) is modelled by its
  sequential schedule: tasks run to completion in creation order.  The claims
  about uniqueness and overwriting are explicitly about sequential runs.
* The only modelled copy failure is the disappearance of the source file
  (its key absent from the store), standing in for the `except Exception`
  branch of `copy_file`; Python's `str.lower` is modelled by `Char.toLower`
  (ASCII, which covers all extension examples in play).
-/

set_option autoImplicit false

namespace FileSorter

/-- Python `str.lower` on a file name, character by character. -/
def lowerChars (s : List Char) : List Char := s.map Char.toLower

/-- Python `name.rfind "."`: index of the last dot of `name`, if any. -/
def rfindDot : List Char → Option Nat
  | [] => none
  | c :: rest =>
      match rfindDot rest with
      | some i => some (i + 1)
      | none => if c = '.' then some 0 else none

/-- CPython `PurePath.suffix` of a final path component `name`: with `i` the
index of the last dot, the slice `name[i:]` when `0 < i < len name - 1`,
otherwise the empty string. -/
def pySuffix (name : List Char) : List Char :=
  match rfindDot name with
  | some i => if 0 < i ∧ i + 1 < name.length then name.drop i else []
  | none => []

/-- CPython `PurePath.stem` of a final path component `name`: the slice
`name[:i]` under the same condition as `pySuffix`, otherwise `name` itself. -/
def pyStem (name : List Char) : List Char :=
  match rfindDot name with
  | some i => if 0 < i ∧ i + 1 < name.length then name.take i else name
  | none => name

/-- Sentinel destination folder for files without an extension
(`"no_extension"` in `copy_file`). -/
def noExtensionName : List Char := "no_extension".toList

/-- Line 33 of `filesorter.py`:
`source_path.suffix[1:].lower() if source_path.suffix else "no_extension"`. -/
def file_ext (name : List Char) : List Char :=
  if pySuffix name ≠ [] then lowerChars ((pySuffix name).drop 1) else noExtensionName

/-- Helper for `numChars`: emits the decimal digits of `n` before `acc`,
with enough fuel to consume every digit. -/
def toDecimalAux : Nat → Nat → List Char → List Char
  | 0, _, acc => acc
  | fuel + 1, n, acc =>
      let acc1 := Nat.digitChar (n % 10) :: acc
      if n < 10 then acc1 else toDecimalAux fuel (n / 10) acc1

/-- Python `str(n)` for a natural number `n`: its decimal digit string. -/
def numChars (n : Nat) : List Char := toDecimalAux (n + 1) n []

/-- Line 50 of `filesorter.py`: the collision candidate
`f"{base_name}_{counter}{suffix}"`. -/
def candName (base suffix : List Char) (counter : Nat) : List Char :=
  base ++ ['_'] ++ numChars counter ++ suffix

/-- Paths below the source root, as lists of path components. -/
abbrev SPath := List (List Char)

/-- Keys of the modelled filesystem: a file under the source root, or a file
in a destination extension folder (the destination is flat: folder × name). -/
inductive FKey where
  | src (p : SPath)
  | dst (folder name : List Char)
deriving DecidableEq

/-- Levels of the two log calls in `copy_file` and `main`. -/
inductive LogLevel where
  | info
  | error
deriving DecidableEq

/-- One line sent to the logger. -/
structure LogEntry where
  level : LogLevel
  text : List Char
deriving DecidableEq

/-- Store of the modelled filesystem mapping keys to byte contents. -/
abbrev Store := List (FKey × List Nat)

/-- Content stored at a key, scanning from the front (first binding wins). -/
def findVal : Store → FKey → Option (List Nat)
  | [], _ => none
  | (k, v) :: rest, key => if k = key then some v else findVal rest key

/-- File names currently present in destination folder `folder`; membership in
this list is `dest_path.exists()` for paths inside that extension folder. -/
def namesIn (store : Store) (folder : List Char) : List (List Char) :=
  store.filterMap fun e =>
    match e.1 with
    | FKey.src _ => none
    | FKey.dst f n => if f = folder then some n else none

/-- Lines 62 to 63 of `filesorter.py`: `open(dest_path, "wb")` followed by a
full write — a truncating write that replaces whatever was at `key`. -/
def writeFile (store : Store) (key : FKey) (content : List Nat) : Store :=
  store.filter (fun e => e.1 ≠ key) ++ [(key, content)]

/-- Lines 48 to 52 of `filesorter.py`: the `while dest_path.exists()` loop.
`occ` lists the names present in the extension folder; the fuel argument only
makes the loop total — `occ.length + 1` steps always reach a free name. -/
def collisionLoop (occ : List (List Char)) (base suffix : List Char) :
    List Char → Nat → Nat → List Char
  | dest, _, 0 => dest
  | dest, counter, fuel + 1 =>
      if dest ∈ occ then
        collisionLoop occ base suffix (candName base suffix counter) (counter + 1) fuel
      else dest

/-- Lines 42 to 52 of `filesorter.py`: starting from `source_path.name`, walk
the candidates `f"{stem}_{counter}{suffix}"` until one is not taken. -/
def resolveDest (occ : List (List Char)) (name : List Char) : List Char :=
  collisionLoop occ (pyStem name) (pySuffix name) name 1 (occ.length + 1)

/-- Modelled machine state: the file store, the set of extension folders that
`os.makedirs` has created, and whether the destination root exists. -/
structure Sys where
  store : Store
  destDirs : List (List Char)
  destRootExists : Bool
deriving DecidableEq

/-- Rendering of a source path for log texts. -/
def pathChars (p : SPath) : List Char := List.intercalate "/".toList p

/-- Text of the success log line of `copy_file`. -/
def copiedMsg (src : SPath) (ext destName : List Char) : List Char :=
  "Скопійовано: ".toList ++ pathChars src ++ " -> ".toList ++
    ext ++ "/".toList ++ destName

/-- Text of `str(e)` for the modelled failure (source file missing). -/
def fileMissingMsg (src : SPath) : List Char :=
  "[Errno 2] No such file or directory: ".toList ++ pathChars src

/-- Text of the error log line of `copy_file`. -/
def copyErrMsg (src : SPath) (err : List Char) : List Char :=
  "Помилка копіювання файлу ".toList ++ pathChars src ++ ": ".toList ++ err

/-- Lines 23 to 68 of `filesorter.py` (`copy_file`), sequential schedule.
In source order: compute the extension, `os.makedirs(ext_folder)` (which also
creates the destination root), resolve the destination name, read the source
file, then write and log success — or catch the failure and log the error. -/
def copy_file (sys : Sys) (dirPath : SPath) (name : List Char) :
    Sys × List LogEntry :=
  let srcPath := dirPath ++ [name]
  let ext := file_ext name
  let destDirs := if ext ∈ sys.destDirs then sys.destDirs else sys.destDirs ++ [ext]
  let destName := resolveDest (namesIn sys.store ext) name
  match findVal sys.store (FKey.src srcPath) with
  | some content =>
      ({ store := writeFile sys.store (FKey.dst ext destName) content,
         destDirs := destDirs, destRootExists := true },
       [⟨LogLevel.info, copiedMsg srcPath ext destName⟩])
  | none =>
      ({ store := sys.store, destDirs := destDirs, destRootExists := true },
       [⟨LogLevel.error, copyErrMsg srcPath (fileMissingMsg srcPath)⟩])

mutual
/-- One child of a source directory at enumeration time: a regular file or a
subdirectory (the two cases of lines 85 and 89 of `filesorter.py`). -/
inductive Entry where
  | file (name : List Char)
  | dir (name : List Char) (children : EntryList)
/-- Children of a source directory, in `iterdir` order. -/
inductive EntryList where
  | nil
  | cons (e : Entry) (rest : EntryList)
end

mutual
/-- One scheduled task of `read_folder`: a `copy_file` task for a file child,
a nested `read_folder` task for a directory child when `recursive` is true,
and nothing at all for a directory child when `recursive` is false. -/
def process_entry (recursive : Bool) (sys : Sys) (curPath : SPath) :
    Entry → Sys × List LogEntry
  | Entry.file n => copy_file sys curPath n
  | Entry.dir d ch =>
      if recursive then read_folder recursive sys (curPath ++ [d]) ch
      else (sys, [])
/-- Lines 71 to 99 of `filesorter.py` (`read_folder`) under the sequential
schedule: the tasks created for the children run to completion in creation
order, and the call completes after all of them (`asyncio.gather`).  Every
nested call receives the same destination root, which the model keeps
implicit: destination keys never mention the source path. -/
def read_folder (recursive : Bool) (sys : Sys) (curPath : SPath) :
    EntryList → Sys × List LogEntry
  | EntryList.nil => (sys, [])
  | EntryList.cons e rest =>
      let r1 := process_entry recursive sys curPath e
      let r2 := read_folder recursive r1.1 curPath rest
      (r2.1, r1.2 ++ r2.2)
end

/-- Status of the source path checked at line 126 of `filesorter.py`:
missing, existing but not a directory, or a directory with its children. -/
inductive SrcStat where
  | missing
  | notDir
  | dirWith (entries : EntryList)

/-- Text of the validation error log line of `main`. -/
def srcErrMsg (srcName : List Char) : List Char :=
  "Вихідна папка не існує або не є папкою: ".toList ++ srcName

/-- Text of the start log line of `main`. -/
def startMsg (srcName destName : List Char) : List Char :=
  "Початок сортування файлів з ".toList ++ srcName ++ " до ".toList ++ destName

/-- Text of the final log line of `main`. -/
def endMsg : List Char := "Сортування файлів завершено".toList

/-- Lines 102 to 138 of `filesorter.py` (`main`) after argument parsing: if
the source does not exist or is not a directory, log the error and return
with nothing touched; otherwise create the destination root and run
`read_folder` on the source's children. -/
def main (srcName destName : List Char) (src : SrcStat) (recursive : Bool)
    (sys : Sys) : Sys × List LogEntry :=
  match src with
  | SrcStat.missing => (sys, [⟨LogLevel.error, srcErrMsg srcName⟩])
  | SrcStat.notDir => (sys, [⟨LogLevel.error, srcErrMsg srcName⟩])
  | SrcStat.dirWith entries =>
      let sys1 : Sys := { sys with destRootExists := true }
      let r := read_folder recursive sys1 [] entries
      (r.1, ⟨LogLevel.info, startMsg srcName destName⟩ ::
        (r.2 ++ [⟨LogLevel.info, endMsg⟩]))

/-- Names of the immediate file children, in `iterdir` order — the files a
non-recursive walk copies. -/
def fileNames : EntryList → List (List Char)
  | EntryList.nil => []
  | EntryList.cons (Entry.file n) rest => n :: fileNames rest
  | EntryList.cons (Entry.dir _ _) rest => fileNames rest

mutual
/-- Directory-and-name pairs of the files in one entry, at any depth, in the
order the sequential recursive walk reaches them. -/
def entryFiles (p : SPath) : Entry → List (SPath × List Char)
  | Entry.file n => [(p, n)]
  | Entry.dir d ch => listFiles (p ++ [d]) ch
/-- Directory-and-name pairs of all files below a child list, at any depth. -/
def listFiles (p : SPath) : EntryList → List (SPath × List Char)
  | EntryList.nil => []
  | EntryList.cons e rest => entryFiles p e ++ listFiles p rest
end

/-- Folding `copy_file` over a flat list of directory-and-name pairs; the
walk theorems show both walk modes equal such a fold. -/
def copyFiles (sys : Sys) : List (SPath × List Char) → Sys × List LogEntry
  | [] => (sys, [])
  | (p, n) :: rest =>
      let r1 := copy_file sys p n
      let r2 := copyFiles r1.1 rest
      (r2.1, r1.2 ++ r2.2)

/-- Destination keys present in a store, as folder-and-name pairs. -/
def dstKeys (store : Store) : List (List Char × List Char) :=
  store.filterMap fun e =>
    match e.1 with
    | FKey.src _ => none
    | FKey.dst f n => some (f, n)

/-- Specification companion of `numChars`, by recursion on the value. -/
def numCharsRec (n : Nat) : List Char :=
  if n < 10 then [Nat.digitChar n]
  else numCharsRec (n / 10) ++ [Nat.digitChar (n % 10)]
decreasing_by exact Nat.div_lt_self (by omega) (by omega)

/-- Decimal value of a digit string, a retraction of `numCharsRec`. -/
def decVal (s : List Char) : Nat := s.foldl (fun a c => 10 * a + (c.toNat - 48)) 0

/-- Entry list with the children of every immediate subdirectory removed;
a non-recursive walk cannot tell the difference. -/
def pruneDirs : EntryList → EntryList
  | EntryList.nil => EntryList.nil
  | EntryList.cons (Entry.file n) rest => EntryList.cons (Entry.file n) (pruneDirs rest)
  | EntryList.cons (Entry.dir d _) rest =>
      EntryList.cons (Entry.dir d EntryList.nil) (pruneDirs rest)

/-- Name `a.txt` used by the concrete witness runs. -/
def wNameA : List Char := "a.txt".toList

/-- Folder name `txt` used by the concrete witness runs. -/
def wFolderTxt : List Char := "txt".toList

/-- State holding the single source file `a.txt`, with an empty destination. -/
def wSys1 : Sys := ⟨[(FKey.src [wNameA], [1, 2, 3])], [], false⟩

/-- Source children list holding the single file `a.txt`. -/
def wEntries1 : EntryList := EntryList.cons (Entry.file wNameA) EntryList.nil

/-- State where the destination already holds `txt/a.txt`. -/
def wSys2 : Sys :=
  ⟨[(FKey.src [wNameA], [1, 2, 3]), (FKey.dst wFolderTxt wNameA, [9])], [wFolderTxt], true⟩

/-- The state after one full run on `wSys1`. -/
def wRunOnce : Sys := (read_folder true wSys1 [] wEntries1).1

/-- The state after running a second time on an unchanged source. -/
def wRunTwice : Sys := (read_folder true wRunOnce [] wEntries1).1

/-- Name with an uppercase extension, for the lowercasing witness. -/
def wNameR : List Char := "Report.TXT".toList

/-- State holding the single source file `Report.TXT`. -/
def wSysR : Sys := ⟨[(FKey.src [wNameR], [7, 7])], [], false⟩

/-- Name whose only dot is the leading character. -/
def wNameG : List Char := ".gitignore".toList

/-- State holding the single source file `.gitignore`. -/
def wSysG : Sys := ⟨[(FKey.src [wNameG], [5])], [], false⟩

/-- Subdirectory name `sub` of the recursive-mode witness. -/
def wSub : List Char := "sub".toList

/-- Name `d.txt` of the nested file of the recursive-mode witness. -/
def wNameD : List Char := "d.txt".toList

/-- Source children list holding `sub/d.txt`, one level deep. -/
def wEntriesSub : EntryList :=
  EntryList.cons (Entry.dir wSub (EntryList.cons (Entry.file wNameD) EntryList.nil))
    EntryList.nil

/-- State holding the single nested source file `sub/d.txt`. -/
def wSysSub : Sys := ⟨[(FKey.src [wSub, wNameD], [4])], [], false⟩

theorem numCharsRec_small {n : Nat} (h : n < 10) :
    numCharsRec n = [Nat.digitChar n] := by
  rw [numCharsRec, if_pos h]

theorem numCharsRec_large {n : Nat} (h : ¬n < 10) :
    numCharsRec n = numCharsRec (n / 10) ++ [Nat.digitChar (n % 10)] := by
  rw [numCharsRec]
  rw [if_neg h]

theorem toDecimalAux_eq : ∀ (fuel n : Nat) (acc : List Char), n < fuel →
    toDecimalAux fuel n acc = numCharsRec n ++ acc := by
  intro fuel
  induction fuel with
  | zero => intro n acc h; omega
  | succ fuel ih =>
      intro n acc h
      by_cases h10 : n < 10
      · rw [toDecimalAux, if_pos h10, numCharsRec_small h10]
        simp [Nat.mod_eq_of_lt h10]
      · rw [toDecimalAux, if_neg h10, ih _ _ (by omega), numCharsRec_large h10]
        simp

theorem numChars_eq_numCharsRec (n : Nat) : numChars n = numCharsRec n := by
  rw [numChars, toDecimalAux_eq _ _ _ (Nat.lt_succ_self n)]
  simp

theorem digitChar_toNat (d : Nat) (h : d < 10) : (Nat.digitChar d).toNat = d + 48 := by
  revert h; revert d; decide

theorem decVal_numCharsRec (n : Nat) : decVal (numCharsRec n) = n := by
  induction n using Nat.strong_induction_on with
  | _ n ih =>
      by_cases h10 : n < 10
      · rw [numCharsRec_small h10]
        simp [decVal, digitChar_toNat n h10]
      · rw [numCharsRec_large h10]
        have hrec := ih (n / 10) (Nat.div_lt_self (by omega) (by omega))
        have : decVal (numCharsRec (n / 10) ++ [Nat.digitChar (n % 10)]) =
            10 * decVal (numCharsRec (n / 10)) + ((Nat.digitChar (n % 10)).toNat - 48) := by
          simp [decVal, List.foldl_append]
        rw [this, hrec, digitChar_toNat _ (Nat.mod_lt _ (by omega))]
        omega

theorem numChars_injective {m n : Nat} (h : numChars m = numChars n) : m = n := by
  have hm := decVal_numCharsRec m
  have hn := decVal_numCharsRec n
  rw [← numChars_eq_numCharsRec] at hm hn
  rw [h] at hm
  omega

theorem candName_inj {base suffix : List Char} {c1 c2 : Nat}
    (h : candName base suffix c1 = candName base suffix c2) : c1 = c2 := by
  have h0 : base ++ '_' :: (numChars c1 ++ suffix) = base ++ '_' :: (numChars c2 ++ suffix) := by
    simpa [candName] using h
  have h1 := List.append_cancel_left h0
  have h2 : numChars c1 ++ suffix = numChars c2 ++ suffix := by
    simpa using h1
  exact numChars_injective (List.append_cancel_right h2)

theorem exists_free_cand (occ : List (List Char)) (base suffix : List Char) :
    ∃ k, 1 ≤ k ∧ k ≤ occ.length + 1 ∧ candName base suffix k ∉ occ := by
  by_contra hall
  push_neg at hall
  have hsub : (List.range (occ.length + 1)).map (fun i => candName base suffix (i + 1)) ⊆ occ := by
    intro x hx
    rcases List.mem_map.mp hx with ⟨i, hi, rfl⟩
    exact hall _ (by omega) (by have := List.mem_range.mp hi; omega)
  have hnd : ((List.range (occ.length + 1)).map (fun i => candName base suffix (i + 1))).Nodup := by
    refine (List.nodup_range _).map ?_
    intro a b hab
    have := candName_inj hab
    omega
  have := (List.subperm_of_subset hnd hsub).length_le
  simp at this

theorem collisionLoop_not_mem {occ : List (List Char)} {base suffix dest : List Char}
    {counter : Nat} (h : dest ∉ occ) :
    ∀ fuel, collisionLoop occ base suffix dest counter fuel = dest := by
  intro fuel
  cases fuel with
  | zero => rfl
  | succ fuel => rw [collisionLoop, if_neg h]

theorem collisionLoop_reaches {occ : List (List Char)} {base suffix : List Char} {k : Nat} :
    ∀ (fuel counter : Nat) (dest : List Char), counter ≤ k → k < counter + fuel →
    (∀ j, counter ≤ j → j < k → candName base suffix j ∈ occ) →
    candName base suffix k ∉ occ → dest ∈ occ →
    collisionLoop occ base suffix dest counter fuel = candName base suffix k := by
  intro fuel
  induction fuel with
  | zero => intro counter dest h1 h2 _ _ _; omega
  | succ fuel ih =>
      intro counter dest h1 h2 hbusy hfree hdest
      rw [collisionLoop, if_pos hdest]
      by_cases hck : counter = k
      · subst hck
        exact collisionLoop_not_mem hfree fuel
      · exact ih (counter + 1) _ (by omega) (by omega)
          (fun j hj1 hj2 => hbusy j (by omega) hj2) hfree
          (hbusy counter (Nat.le_refl _) (by omega))

theorem resolveDest_eq_cand {occ : List (List Char)} {name : List Char} {k : Nat}
    (hname : name ∈ occ) (hk : 1 ≤ k)
    (hbusy : ∀ j, 1 ≤ j → j < k → candName (pyStem name) (pySuffix name) j ∈ occ)
    (hfree : candName (pyStem name) (pySuffix name) k ∉ occ) :
    resolveDest occ name = candName (pyStem name) (pySuffix name) k := by
  have hkle : k ≤ occ.length + 1 := by
    by_contra hgt
    push_neg at hgt
    have hsub : (List.range (occ.length + 1)).map
        (fun i => candName (pyStem name) (pySuffix name) (i + 1)) ⊆ occ := by
      intro x hx
      rcases List.mem_map.mp hx with ⟨i, hi, rfl⟩
      exact hbusy _ (by omega) (by have := List.mem_range.mp hi; omega)
    have hnd : ((List.range (occ.length + 1)).map
        (fun i => candName (pyStem name) (pySuffix name) (i + 1))).Nodup := by
      refine (List.nodup_range _).map ?_
      intro a b hab
      have := candName_inj hab
      omega
    have := (List.subperm_of_subset hnd hsub).length_le
    simp at this
  exact collisionLoop_reaches (occ.length + 1) 1 name hk (by omega) hbusy hfree hname

theorem resolveDest_not_mem (occ : List (List Char)) (name : List Char) :
    resolveDest occ name ∉ occ := by
  by_cases hname : name ∈ occ
  · rcases exists_free_cand occ (pyStem name) (pySuffix name) with ⟨k0, hk0, hk0le, hk0free⟩
    have hex : ∃ j, candName (pyStem name) (pySuffix name) (j + 1) ∉ occ := ⟨k0 - 1, by
      have : k0 - 1 + 1 = k0 := by omega
      rw [this]; exact hk0free⟩
    set j0 := Nat.find hex with hj0
    have hfree : candName (pyStem name) (pySuffix name) (j0 + 1) ∉ occ := Nat.find_spec hex
    have hbusy : ∀ j, 1 ≤ j → j < j0 + 1 → candName (pyStem name) (pySuffix name) j ∈ occ := by
      intro j hj1 hj2
      have hlt : j - 1 < j0 := by omega
      have := Nat.find_min hex hlt
      simp only [not_not] at this
      have hj : j - 1 + 1 = j := by omega
      rwa [hj] at this
    rw [resolveDest_eq_cand hname (by omega) hbusy hfree]
    exact hfree
  · rw [resolveDest, collisionLoop_not_mem hname]
    exact hname

theorem findVal_append_of_some {l : Store} {k : FKey} {v : List Nat} (l2 : Store)
    (h : findVal l k = some v) : findVal (l ++ l2) k = some v := by
  induction l with
  | nil => simp [findVal] at h
  | cons e rest ih =>
      rcases e with ⟨k1, v1⟩
      rw [findVal] at h
      by_cases hk : k1 = k
      · rw [List.cons_append, findVal, if_pos hk]
        rwa [if_pos hk] at h
      · rw [List.cons_append, findVal, if_neg hk]
        rw [if_neg hk] at h
        exact ih h

theorem findVal_append_ne {k1 k : FKey} (l : Store) (v1 : List Nat) (h : k1 ≠ k) :
    findVal (l ++ [(k1, v1)]) k = findVal l k := by
  induction l with
  | nil => simp [findVal, if_neg h]
  | cons e rest ih =>
      rcases e with ⟨k2, v2⟩
      by_cases hk : k2 = k
      · rw [List.cons_append, findVal, if_pos hk, findVal, if_pos hk]
      · rw [List.cons_append, findVal, if_neg hk, findVal, if_neg hk]
        exact ih

theorem findVal_none_of_fresh {l : Store} {k : FKey} (h : ∀ e ∈ l, e.1 ≠ k) :
    findVal l k = none := by
  induction l with
  | nil => rfl
  | cons e rest ih =>
      rcases e with ⟨k1, v1⟩
      rw [findVal, if_neg (h (k1, v1) (List.mem_cons_self _ _))]
      exact ih fun e he => h e (List.mem_cons_of_mem _ he)

theorem findVal_append_self {l : Store} {k : FKey} (v : List Nat)
    (h : findVal l k = none) : findVal (l ++ [(k, v)]) k = some v := by
  induction l with
  | nil => simp [findVal]
  | cons e rest ih =>
      rcases e with ⟨k1, v1⟩
      rw [findVal] at h
      by_cases hk : k1 = k
      · rw [if_pos hk] at h; exact absurd h (by simp)
      · rw [if_neg hk] at h
        rw [List.cons_append, findVal, if_neg hk]
        exact ih h

theorem mem_namesIn_iff {store : Store} {f n : List Char} :
    n ∈ namesIn store f ↔ ∃ v, (FKey.dst f n, v) ∈ store := by
  rw [namesIn, List.mem_filterMap]
  constructor
  · rintro ⟨⟨key, v⟩, hmem, hval⟩
    cases key with
    | src p => simp at hval
    | dst f1 n1 =>
        simp only at hval
        by_cases hf : f1 = f
        · rw [if_pos hf] at hval
          cases hval
          exact ⟨v, hf ▸ hmem⟩
        · rw [if_neg hf] at hval
          cases hval
  · rintro ⟨v, hmem⟩
    exact ⟨(FKey.dst f n, v), hmem, by simp⟩

theorem fresh_key_of_not_namesIn {store : Store} {f d : List Char}
    (h : d ∉ namesIn store f) : ∀ e ∈ store, e.1 ≠ FKey.dst f d := by
  rintro ⟨key, v⟩ hmem heq
  simp only at heq
  exact h (mem_namesIn_iff.mpr ⟨v, heq ▸ hmem⟩)

theorem writeFile_fresh {store : Store} {key : FKey} (content : List Nat)
    (h : ∀ e ∈ store, e.1 ≠ key) :
    writeFile store key content = store ++ [(key, content)] := by
  rw [writeFile, List.filter_eq_self.mpr]
  intro e he
  simpa using h e he

theorem copy_file_ok {sys : Sys} {dirPath : SPath} {name : List Char} {c : List Nat}
    (h : findVal sys.store (FKey.src (dirPath ++ [name])) = some c) :
    (copy_file sys dirPath name).1.store =
      sys.store ++ [(FKey.dst (file_ext name)
        (resolveDest (namesIn sys.store (file_ext name)) name), c)] := by
  have hfresh := fresh_key_of_not_namesIn
    (resolveDest_not_mem (namesIn sys.store (file_ext name)) name)
  simp only [copy_file, h]
  exact writeFile_fresh c hfresh

theorem copy_file_err {sys : Sys} {dirPath : SPath} {name : List Char}
    (h : findVal sys.store (FKey.src (dirPath ++ [name])) = none) :
    (copy_file sys dirPath name).1.store = sys.store ∧
    (copy_file sys dirPath name).2 =
      [⟨LogLevel.error, copyErrMsg (dirPath ++ [name]) (fileMissingMsg (dirPath ++ [name]))⟩] := by
  simp only [copy_file, h]
  exact ⟨by trivial, by trivial⟩

theorem copy_file_preserve {sys : Sys} {dirPath : SPath} {name : List Char} {k : FKey}
    {v : List Nat} (h : findVal sys.store k = some v) :
    findVal (copy_file sys dirPath name).1.store k = some v := by
  cases hread : findVal sys.store (FKey.src (dirPath ++ [name])) with
  | some c => rw [copy_file_ok hread]; exact findVal_append_of_some _ h
  | none => rw [(copy_file_err hread).1]; exact h

theorem copy_file_src (sys : Sys) (dirPath : SPath) (name : List Char) (q : SPath) :
    findVal (copy_file sys dirPath name).1.store (FKey.src q) =
      findVal sys.store (FKey.src q) := by
  cases hread : findVal sys.store (FKey.src (dirPath ++ [name])) with
  | some c =>
      rw [copy_file_ok hread]
      exact findVal_append_ne _ _ (by simp)
  | none => rw [(copy_file_err hread).1]

theorem mem_dstKeys_iff {store : Store} {f n : List Char} :
    (f, n) ∈ dstKeys store ↔ ∃ v, (FKey.dst f n, v) ∈ store := by
  rw [dstKeys, List.mem_filterMap]
  constructor
  · rintro ⟨⟨key, v⟩, hmem, hval⟩
    cases key with
    | src p => simp at hval
    | dst f1 n1 =>
        simp only [Option.some_inj, Prod.mk.injEq] at hval
        exact ⟨v, by rw [← hval.1, ← hval.2]; exact hmem⟩
  · rintro ⟨v, hmem⟩
    exact ⟨(FKey.dst f n, v), hmem, rfl⟩

theorem dstKeys_append (l1 l2 : Store) :
    dstKeys (l1 ++ l2) = dstKeys l1 ++ dstKeys l2 := by
  rw [dstKeys, dstKeys, dstKeys, List.filterMap_append]

theorem copy_file_nodup {sys : Sys} {dirPath : SPath} {name : List Char}
    (h : (dstKeys sys.store).Nodup) :
    (dstKeys (copy_file sys dirPath name).1.store).Nodup := by
  cases hread : findVal sys.store (FKey.src (dirPath ++ [name])) with
  | some c =>
      rw [copy_file_ok hread, dstKeys_append]
      have hnew : (file_ext name,
          resolveDest (namesIn sys.store (file_ext name)) name) ∉ dstKeys sys.store := by
        intro hmem
        rcases mem_dstKeys_iff.mp hmem with ⟨v, hv⟩
        exact resolveDest_not_mem (namesIn sys.store (file_ext name)) name
          (mem_namesIn_iff.mpr ⟨v, hv⟩)
      have hsingle : dstKeys [(FKey.dst (file_ext name)
          (resolveDest (namesIn sys.store (file_ext name)) name), c)] =
          [(file_ext name, resolveDest (namesIn sys.store (file_ext name)) name)] := rfl
      rw [hsingle]
      refine List.Nodup.append h (List.nodup_singleton _) ?_
      intro a ha hb
      simp only [List.mem_singleton] at hb
      subst hb
      exact hnew ha
  | none => rw [(copy_file_err hread).1]; exact h

theorem fileNames_pruneDirs : ∀ entries : EntryList,
    fileNames (pruneDirs entries) = fileNames entries
  | EntryList.nil => rfl
  | EntryList.cons (Entry.file n) rest => by
      rw [pruneDirs, fileNames, fileNames, fileNames_pruneDirs rest]
  | EntryList.cons (Entry.dir d ch) rest => by
      rw [pruneDirs, fileNames, fileNames, fileNames_pruneDirs rest]

theorem copyFiles_append : ∀ (l1 l2 : List (SPath × List Char)) (sys : Sys),
    copyFiles sys (l1 ++ l2) =
      ((copyFiles (copyFiles sys l1).1 l2).1,
       (copyFiles sys l1).2 ++ (copyFiles (copyFiles sys l1).1 l2).2)
  | [], l2, sys => by simp [copyFiles]
  | (p, n) :: rest, l2, sys => by
      simp only [List.cons_append, copyFiles, List.append_eq]
      rw [copyFiles_append rest l2]
      simp [List.append_assoc]

theorem read_folder_false_eq : ∀ (entries : EntryList) (sys : Sys) (p : SPath),
    read_folder false sys p entries =
      copyFiles sys ((fileNames entries).map fun n => (p, n))
  | EntryList.nil, sys, p => rfl
  | EntryList.cons (Entry.file n) rest, sys, p => by
      simp only [read_folder, process_entry, fileNames, List.map_cons, copyFiles]
      rw [read_folder_false_eq rest]
  | EntryList.cons (Entry.dir d ch) rest, sys, p => by
      simp only [read_folder, process_entry, fileNames]
      rw [read_folder_false_eq rest]
      simp

mutual
theorem process_entry_true_eq : ∀ (e : Entry) (sys : Sys) (p : SPath),
    process_entry true sys p e = copyFiles sys (entryFiles p e)
  | Entry.file n, sys, p => by
      simp [process_entry, entryFiles, copyFiles]
  | Entry.dir d ch, sys, p => by
      simp only [process_entry, entryFiles, if_true]
      exact read_folder_true_eq ch sys (p ++ [d])
theorem read_folder_true_eq : ∀ (entries : EntryList) (sys : Sys) (p : SPath),
    read_folder true sys p entries = copyFiles sys (listFiles p entries)
  | EntryList.nil, sys, p => rfl
  | EntryList.cons e rest, sys, p => by
      simp only [read_folder, listFiles]
      rw [process_entry_true_eq e, read_folder_true_eq rest, copyFiles_append]
end

theorem copyFiles_preserve (l : List (SPath × List Char)) :
    ∀ (sys : Sys) (k : FKey) (v : List Nat), findVal sys.store k = some v →
      findVal (copyFiles sys l).1.store k = some v := by
  induction l with
  | nil => intro sys k v h; exact h
  | cons pn rest ih =>
      intro sys k v h
      rcases pn with ⟨p, n⟩
      simp only [copyFiles]
      exact ih _ _ _ (copy_file_preserve h)

theorem copyFiles_src (l : List (SPath × List Char)) :
    ∀ (sys : Sys) (q : SPath),
      findVal (copyFiles sys l).1.store (FKey.src q) = findVal sys.store (FKey.src q) := by
  induction l with
  | nil => intro sys q; rfl
  | cons pn rest ih =>
      intro sys q
      rcases pn with ⟨p, n⟩
      simp only [copyFiles]
      rw [ih, copy_file_src]

theorem copyFiles_nodup (l : List (SPath × List Char)) :
    ∀ sys : Sys, (dstKeys sys.store).Nodup →
      (dstKeys (copyFiles sys l).1.store).Nodup := by
  induction l with
  | nil => intro sys h; exact h
  | cons pn rest ih =>
      intro sys h
      rcases pn with ⟨p, n⟩
      simp only [copyFiles]
      exact ih _ (copy_file_nodup h)

theorem read_folder_preserve (r : Bool) (sys : Sys) (p : SPath) (entries : EntryList)
    {k : FKey} {v : List Nat} (h : findVal sys.store k = some v) :
    findVal (read_folder r sys p entries).1.store k = some v := by
  cases r
  · rw [read_folder_false_eq]; exact copyFiles_preserve _ _ _ _ h
  · rw [read_folder_true_eq]; exact copyFiles_preserve _ _ _ _ h

theorem read_folder_src (r : Bool) (sys : Sys) (p : SPath) (entries : EntryList)
    (q : SPath) :
    findVal (read_folder r sys p entries).1.store (FKey.src q) =
      findVal sys.store (FKey.src q) := by
  cases r
  · rw [read_folder_false_eq]; exact copyFiles_src _ _ _
  · rw [read_folder_true_eq]; exact copyFiles_src _ _ _

theorem read_folder_nodup (r : Bool) (sys : Sys) (p : SPath) (entries : EntryList)
    (h : (dstKeys sys.store).Nodup) :
    (dstKeys (read_folder r sys p entries).1.store).Nodup := by
  cases r
  · rw [read_folder_false_eq]; exact copyFiles_nodup _ _ h
  · rw [read_folder_true_eq]; exact copyFiles_nodup _ _ h

theorem copyFiles_mem (l : List (SPath × List Char)) :
    ∀ (sys : Sys) (q : SPath) (n : List Char) (c : List Nat), (q, n) ∈ l →
      findVal sys.store (FKey.src (q ++ [n])) = some c →
      ∃ d, findVal (copyFiles sys l).1.store (FKey.dst (file_ext n) d) = some c := by
  induction l with
  | nil => intro sys q n c hmem; exact absurd hmem (List.not_mem_nil _)
  | cons pn rest ih =>
      intro sys q n c hmem hval
      rcases pn with ⟨p0, n0⟩
      simp only [copyFiles]
      rcases List.mem_cons.mp hmem with heq | hmem2
      · rcases Prod.mk.injEq .. ▸ heq with ⟨hq, hn⟩
        subst hq; subst hn
        refine ⟨resolveDest (namesIn sys.store (file_ext n)) n, ?_⟩
        apply copyFiles_preserve
        rw [copy_file_ok hval]
        exact findVal_append_self c
          (findVal_none_of_fresh (fresh_key_of_not_namesIn (resolveDest_not_mem _ _)))
      · have hval2 : findVal (copy_file sys p0 n0).1.store (FKey.src (q ++ [n])) = some c := by
          rw [copy_file_src]; exact hval
        exact ih _ _ _ _ hmem2 hval2

theorem rfindDot_eq_none {t : List Char} (h : '.' ∉ t) : rfindDot t = none := by
  induction t with
  | nil => rfl
  | cons c rest ih =>
      rw [rfindDot, ih fun hm => h (List.mem_cons_of_mem _ hm)]
      exact if_neg fun hc => h (by rw [hc]; exact List.mem_cons_self _ _)

theorem rfindDot_leading {t : List Char} (h : '.' ∉ t) : rfindDot ('.' :: t) = some 0 := by
  rw [rfindDot, rfindDot_eq_none h]
  simp

theorem rfindDot_trailing : ∀ t : List Char, '.' ∉ t →
    rfindDot (t ++ ['.']) = some t.length
  | [], _ => rfl
  | c :: rest, h => by
      have hr := rfindDot_trailing rest fun hm => h (List.mem_cons_of_mem _ hm)
      simp [rfindDot, hr]

theorem pySuffix_leading {t : List Char} (h : '.' ∉ t) : pySuffix ('.' :: t) = [] := by
  rw [pySuffix, rfindDot_leading h]
  simp

theorem pySuffix_trailing {t : List Char} (h : '.' ∉ t) : pySuffix (t ++ ['.']) = [] := by
  rw [pySuffix, rfindDot_trailing t h]
  simp

theorem file_ext_of_empty {name : List Char} (h : pySuffix name = []) :
    file_ext name = noExtensionName := by
  rw [file_ext, if_neg]
  simp [h]

theorem file_ext_last_dot {name : List Char} {i : Nat} (h : rfindDot name = some i)
    (h0 : 0 < i) (hlen : i + 1 < name.length) :
    file_ext name = lowerChars (name.drop (i + 1)) := by
  have hsuf : pySuffix name = name.drop i := by
    rw [pySuffix, h]
    show (if 0 < i ∧ i + 1 < name.length then name.drop i else []) = name.drop i
    rw [if_pos ⟨h0, hlen⟩]
  have hne : pySuffix name ≠ [] := by
    rw [hsuf]
    intro hnil
    have := List.drop_eq_nil_iff.mp hnil
    omega
  rw [file_ext, if_pos hne, hsuf, List.drop_drop]

/-- Claim C1: for every source file passed to the Copier whose read succeeds,
the new destination entry lands in the subfolder named by the file's suffix —
the text after the last dot of its name — lowercased and with the leading dot
stripped; a file with no suffix lands in the sentinel folder `no_extension`. -/
theorem c1_extension_folder (sys : Sys) (dirPath : SPath) (name : List Char)
    (c : List Nat) (h : findVal sys.store (FKey.src (dirPath ++ [name])) = some c) :
    (∃ d, (copy_file sys dirPath name).1.store =
        sys.store ++ [(FKey.dst (file_ext name) d, c)]) ∧
    (∀ i, rfindDot name = some i → 0 < i → i + 1 < name.length →
        file_ext name = lowerChars (name.drop (i + 1))) ∧
    (pySuffix name = [] → file_ext name = noExtensionName) ∧
    (pySuffix name ≠ [] → file_ext name = lowerChars ((pySuffix name).drop 1)) := by
  refine ⟨⟨_, copy_file_ok h⟩, ?_, ?_, ?_⟩
  · intro i hi h0 hlen
    exact file_ext_last_dot hi h0 hlen
  · intro hempty
    exact file_ext_of_empty hempty
  · intro hne
    rw [file_ext, if_pos hne]

theorem c1_extension_folder_witness :
    findVal wSysR.store (FKey.src ([] ++ [wNameR])) = some [7, 7] ∧
    ((∃ d, (copy_file wSysR [] wNameR).1.store =
        wSysR.store ++ [(FKey.dst (file_ext wNameR) d, [7, 7])]) ∧
     (∀ i, rfindDot wNameR = some i → 0 < i → i + 1 < wNameR.length →
        file_ext wNameR = lowerChars (wNameR.drop (i + 1))) ∧
     (pySuffix wNameR = [] → file_ext wNameR = noExtensionName) ∧
     (pySuffix wNameR ≠ [] → file_ext wNameR = lowerChars ((pySuffix wNameR).drop 1))) :=
  ⟨by decide, c1_extension_folder wSysR [] wNameR [7, 7] (by decide)⟩

/-- Claim C2: when the original destination name is already taken, `copy_file`
tries the candidates `stem_1suffix`, `stem_2suffix`, … in order and writes to
the first one that does not exist, and the pre-existing file at the original
name keeps its content. -/
theorem c2_collision_resolution (sys : Sys) (dirPath : SPath) (name : List Char)
    (c : List Nat) (k : Nat)
    (hname : name ∈ namesIn sys.store (file_ext name))
    (hk : 1 ≤ k)
    (hbusy : ∀ j, 1 ≤ j → j < k →
      candName (pyStem name) (pySuffix name) j ∈ namesIn sys.store (file_ext name))
    (hfree : candName (pyStem name) (pySuffix name) k ∉ namesIn sys.store (file_ext name))
    (hread : findVal sys.store (FKey.src (dirPath ++ [name])) = some c) :
    (copy_file sys dirPath name).1.store = sys.store ++
      [(FKey.dst (file_ext name) (candName (pyStem name) (pySuffix name) k), c)] ∧
    ∀ v, findVal sys.store (FKey.dst (file_ext name) name) = some v →
      findVal (copy_file sys dirPath name).1.store (FKey.dst (file_ext name) name) = some v := by
  constructor
  · rw [copy_file_ok hread, resolveDest_eq_cand hname hk hbusy hfree]
  · intro v hv
    exact copy_file_preserve hv

theorem c2_collision_resolution_witness :
    wNameA ∈ namesIn wSys2.store (file_ext wNameA) ∧
    candName (pyStem wNameA) (pySuffix wNameA) 1 ∉ namesIn wSys2.store (file_ext wNameA) ∧
    findVal wSys2.store (FKey.src ([] ++ [wNameA])) = some [1, 2, 3] ∧
    ((copy_file wSys2 [] wNameA).1.store = wSys2.store ++
      [(FKey.dst (file_ext wNameA) (candName (pyStem wNameA) (pySuffix wNameA) 1), [1, 2, 3])] ∧
     ∀ v, findVal wSys2.store (FKey.dst (file_ext wNameA) wNameA) = some v →
      findVal (copy_file wSys2 [] wNameA).1.store (FKey.dst (file_ext wNameA) wNameA) = some v) :=
  ⟨by decide, by decide, by decide,
    c2_collision_resolution wSys2 [] wNameA [1, 2, 3] 1 (by decide) (by omega)
      (fun j hj1 hj2 => absurd (Nat.lt_of_lt_of_le hj2 hj1) (Nat.lt_irrefl j))
      (by decide) (by decide)⟩

/-- Claim C3: under the sequential schedule no copy ever overwrites an
existing destination file — every destination binding survives a whole run
unchanged and distinctness of destination keys is preserved — and running
twice on an unchanged single-file source yields `txt/a.txt` and `txt/a_1.txt`
holding the same bytes, not a silent overwrite. -/
theorem c3_no_overwrite :
    (∀ (r : Bool) (sys : Sys) (p : SPath) (entries : EntryList) (f n : List Char)
       (v : List Nat), findVal sys.store (FKey.dst f n) = some v →
       findVal (read_folder r sys p entries).1.store (FKey.dst f n) = some v) ∧
    (∀ (r : Bool) (sys : Sys) (p : SPath) (entries : EntryList),
       (dstKeys sys.store).Nodup →
       (dstKeys (read_folder r sys p entries).1.store).Nodup) ∧
    (findVal wRunTwice.store (FKey.dst wFolderTxt wNameA) = some [1, 2, 3] ∧
     findVal wRunTwice.store (FKey.dst wFolderTxt "a_1.txt".toList) = some [1, 2, 3]) :=
  ⟨fun r sys p entries _ _ _ h => read_folder_preserve r sys p entries h,
   fun r sys p entries h => read_folder_nodup r sys p entries h,
   by decide, by decide⟩

theorem c3_no_overwrite_witness :
    findVal wSys2.store (FKey.dst wFolderTxt wNameA) = some [9] ∧
    findVal (read_folder true wSys2 [] wEntries1).1.store (FKey.dst wFolderTxt wNameA) =
      some [9] :=
  ⟨by decide, c3_no_overwrite.1 true wSys2 [] wEntries1 wFolderTxt wNameA [9] (by decide)⟩

/-- Claim C4: with the recursive flag false the walk equals a fold of
`copy_file` over exactly the immediate file children, and emptying every
subdirectory changes nothing — no file beneath a subdirectory is copied. -/
theorem c4_non_recursive_skips_subdirs (sys : Sys) (p : SPath) (entries : EntryList) :
    read_folder false sys p entries =
      copyFiles sys ((fileNames entries).map fun n => (p, n)) ∧
    read_folder false sys p entries = read_folder false sys p (pruneDirs entries) := by
  constructor
  · exact read_folder_false_eq entries sys p
  · rw [read_folder_false_eq, read_folder_false_eq, fileNames_pruneDirs]

/-- Claim C5: with the recursive flag true the walk equals a fold of
`copy_file` over the depth-first list of all files at any depth, every nested
invocation targeting the same destination root; hence a readable file at any
depth appears directly under `dest/<extension>/` with its content. -/
theorem c5_recursive_flattens :
    (∀ (sys : Sys) (p : SPath) (entries : EntryList),
       read_folder true sys p entries = copyFiles sys (listFiles p entries)) ∧
    (∀ (sys : Sys) (p : SPath) (entries : EntryList) (q : SPath) (n : List Char)
       (c : List Nat), (q, n) ∈ listFiles p entries →
       findVal sys.store (FKey.src (q ++ [n])) = some c →
       ∃ d, findVal (read_folder true sys p entries).1.store
         (FKey.dst (file_ext n) d) = some c) := by
  constructor
  · exact fun sys p entries => read_folder_true_eq entries sys p
  · intro sys p entries q n c hmem hval
    rw [read_folder_true_eq]
    exact copyFiles_mem _ _ _ _ _ hmem hval

theorem c5_recursive_flattens_witness :
    (wSub :: ([] : SPath), wNameD) ∈ listFiles [] wEntriesSub ∧
    findVal wSysSub.store (FKey.src ([wSub] ++ [wNameD])) = some [4] ∧
    ∃ d, findVal (read_folder true wSysSub [] wEntriesSub).1.store
      (FKey.dst (file_ext wNameD) d) = some [4] :=
  ⟨by decide, by decide,
    c5_recursive_flattens.2 wSysSub [] wEntriesSub [wSub] wNameD [4] (by decide) (by decide)⟩

/-- Claim C6: a successful copy reads the full source content and writes it
to the resolved destination path with the truncating `writeFile`, so the
destination file's bytes equal the source file's bytes unchanged. -/
theorem c6_byte_for_byte (sys : Sys) (dirPath : SPath) (name : List Char)
    (c : List Nat) (h : findVal sys.store (FKey.src (dirPath ++ [name])) = some c) :
    ∃ d, (copy_file sys dirPath name).1.store =
        writeFile sys.store (FKey.dst (file_ext name) d) c ∧
      findVal (copy_file sys dirPath name).1.store (FKey.dst (file_ext name) d) = some c := by
  refine ⟨resolveDest (namesIn sys.store (file_ext name)) name, ?_, ?_⟩
  · simp only [copy_file, h]
  · rw [copy_file_ok h]
    exact findVal_append_self c
      (findVal_none_of_fresh (fresh_key_of_not_namesIn (resolveDest_not_mem _ _)))

theorem c6_byte_for_byte_witness :
    findVal wSys1.store (FKey.src ([] ++ [wNameA])) = some [1, 2, 3] ∧
    ∃ d, (copy_file wSys1 [] wNameA).1.store =
        writeFile wSys1.store (FKey.dst (file_ext wNameA) d) [1, 2, 3] ∧
      findVal (copy_file wSys1 [] wNameA).1.store (FKey.dst (file_ext wNameA) d) =
        some [1, 2, 3] :=
  ⟨by decide, c6_byte_for_byte wSys1 [] wNameA [1, 2, 3] (by decide)⟩

/-- Claim C7: when the copy fails (modelled: the source file is gone), the
error is caught inside `copy_file`, which returns normally with the
destination files untouched and exactly one error log line containing the
source path and the error text; the walk then continues with the remaining
files. -/
theorem c7_error_caught (sys : Sys) (p : SPath) (name : List Char)
    (rest : EntryList) (r : Bool)
    (h : findVal sys.store (FKey.src (p ++ [name])) = none) :
    (copy_file sys p name).1.store = sys.store ∧
    (copy_file sys p name).2 =
      [⟨LogLevel.error, copyErrMsg (p ++ [name]) (fileMissingMsg (p ++ [name]))⟩] ∧
    (∃ pre post, copyErrMsg (p ++ [name]) (fileMissingMsg (p ++ [name])) =
        pre ++ (pathChars (p ++ [name]) ++ post)) ∧
    (∃ pre, copyErrMsg (p ++ [name]) (fileMissingMsg (p ++ [name])) =
        pre ++ fileMissingMsg (p ++ [name])) ∧
    read_folder r sys p (EntryList.cons (Entry.file name) rest) =
      ((read_folder r (copy_file sys p name).1 p rest).1,
       (copy_file sys p name).2 ++ (read_folder r (copy_file sys p name).1 p rest).2) := by
  refine ⟨(copy_file_err h).1, (copy_file_err h).2, ?_, ?_, rfl⟩
  · exact ⟨"Помилка копіювання файлу ".toList,
      ": ".toList ++ fileMissingMsg (p ++ [name]), by simp [copyErrMsg]⟩
  · exact ⟨"Помилка копіювання файлу ".toList ++ pathChars (p ++ [name]) ++ ": ".toList,
      by simp [copyErrMsg]⟩

theorem c7_error_caught_witness :
    findVal (Sys.mk [] [] false).store (FKey.src ([] ++ [wNameA])) = none ∧
    ((copy_file (Sys.mk [] [] false) [] wNameA).1.store = (Sys.mk [] [] false).store ∧
     (copy_file (Sys.mk [] [] false) [] wNameA).2 =
      [⟨LogLevel.error, copyErrMsg ([] ++ [wNameA]) (fileMissingMsg ([] ++ [wNameA]))⟩] ∧
     (∃ pre post, copyErrMsg ([] ++ [wNameA]) (fileMissingMsg ([] ++ [wNameA])) =
        pre ++ (pathChars ([] ++ [wNameA]) ++ post)) ∧
     (∃ pre, copyErrMsg ([] ++ [wNameA]) (fileMissingMsg ([] ++ [wNameA])) =
        pre ++ fileMissingMsg ([] ++ [wNameA])) ∧
     read_folder true (Sys.mk [] [] false) []
         (EntryList.cons (Entry.file wNameA) EntryList.nil) =
       ((read_folder true (copy_file (Sys.mk [] [] false) [] wNameA).1 [] EntryList.nil).1,
        (copy_file (Sys.mk [] [] false) [] wNameA).2 ++
          (read_folder true (copy_file (Sys.mk [] [] false) [] wNameA).1 [] EntryList.nil).2)) :=
  ⟨by decide, c7_error_caught (Sys.mk [] [] false) [] wNameA EntryList.nil true (by decide)⟩

/-- Claim C8: when the source path does not exist or is not a directory,
`main` only logs the validation error and returns: the store, the extension
folders and the destination root flag are all exactly as before, and no copy
is attempted. -/
theorem c8_invalid_source (srcName destName : List Char) (src : SrcStat) (r : Bool)
    (sys : Sys) (h : src = SrcStat.missing ∨ src = SrcStat.notDir) :
    main srcName destName src r sys = (sys, [⟨LogLevel.error, srcErrMsg srcName⟩]) := by
  rcases h with rfl | rfl <;> rfl

theorem c8_invalid_source_witness :
    (SrcStat.missing = SrcStat.missing ∨ SrcStat.missing = SrcStat.notDir) ∧
    main "s".toList "d".toList SrcStat.missing true wSys1 =
      (wSys1, [⟨LogLevel.error, srcErrMsg "s".toList⟩]) :=
  ⟨Or.inl rfl, c8_invalid_source "s".toList "d".toList SrcStat.missing true wSys1
    (Or.inl rfl)⟩

/-- Claim C9: a file whose only dot is its leading character (like
`.gitignore`) or its trailing character (like `name.`) is classified as
having no suffix: its extension folder is the sentinel `no_extension`. -/
theorem c9_dot_edge_cases (name : List Char)
    (h : (∃ t, name = '.' :: t ∧ '.' ∉ t) ∨ (∃ t, name = t ++ ['.'] ∧ '.' ∉ t)) :
    file_ext name = noExtensionName ∧
    ∀ (sys : Sys) (p : SPath) (c : List Nat),
      findVal sys.store (FKey.src (p ++ [name])) = some c →
      ∃ d, (copy_file sys p name).1.store = sys.store ++ [(FKey.dst noExtensionName d, c)] := by
  have hext : file_ext name = noExtensionName := by
    rcases h with ⟨t, rfl, ht⟩ | ⟨t, rfl, ht⟩
    · exact file_ext_of_empty (pySuffix_leading ht)
    · exact file_ext_of_empty (pySuffix_trailing ht)
  refine ⟨hext, ?_⟩
  intro sys p c hread
  refine ⟨resolveDest (namesIn sys.store (file_ext name)) name, ?_⟩
  rw [copy_file_ok hread, hext]

theorem c9_dot_edge_cases_witness :
    ((∃ t, wNameG = '.' :: t ∧ '.' ∉ t) ∨ (∃ t, wNameG = t ++ ['.'] ∧ '.' ∉ t)) ∧
    (file_ext wNameG = noExtensionName ∧
     ∀ (sys : Sys) (p : SPath) (c : List Nat),
       findVal sys.store (FKey.src (p ++ [wNameG])) = some c →
       ∃ d, (copy_file sys p wNameG).1.store =
         sys.store ++ [(FKey.dst noExtensionName d, c)]) :=
  ⟨Or.inl ⟨"gitignore".toList, by decide, by decide⟩,
   c9_dot_edge_cases wNameG (Or.inl ⟨"gitignore".toList, by decide, by decide⟩)⟩

/-- Claim C10: a whole run, in either mode, leaves every file under the
source root exactly as it was — source files are read but never modified,
renamed or deleted; the program copies, it does not move. -/
theorem c10_source_unchanged (r : Bool) (sys : Sys) (p : SPath) (entries : EntryList)
    (q : SPath) :
    findVal (read_folder r sys p entries).1.store (FKey.src q) =
      findVal sys.store (FKey.src q) :=
  read_folder_src r sys p entries q

end FileSorter
